import Mathlib

/-
Shallow embedding of src/steganography.ipynb.

Strings of single characters are modelled as lists of natural code points
(Python ord values).  Bitstreams (Python strings of the characters 0 and 1)
are modelled as lists of booleans, true standing for the digit 1.  Pixels
are triples of integer channel values (Python ints are unbounded, so Int is
used).  An image is a Grid: its pixel map is stored column by column, which
matches the column-major traversal order of the notebook.
-/

abbrev Pixel := Int × Int × Int

structure Grid where
  height : Nat
  cols : List (List Pixel)
deriving DecidableEq

def Grid.width (g : Grid) : Nat := g.cols.length

/-- A well-formed grid: every column holds exactly height pixels. -/
def Grid.wf (g : Grid) : Prop := ∀ c ∈ g.cols, c.length = g.height

/-! BitCodec: message_to_binary and binary_to_message. -/

/-- Binary digits of n, most significant first, no padding; empty for 0.
The fuel argument makes the recursion structural so that the kernel can
evaluate it; natToBits supplies fuel n, which always suffices. -/
def natToBitsGo : Nat → Nat → List Bool
  | _, 0 => []
  | 0, _ => []
  | f + 1, m + 1 => natToBitsGo f ((m + 1) / 2) ++ [decide ((m + 1) % 2 = 1)]

def natToBits (n : Nat) : List Bool := natToBitsGo n n

/-- Python format(c, eight-digit zero padded binary): the binary digits of c,
left padded with zeros to at least eight digits; code points of 256 and above
produce more than eight digits, exactly as format does. -/
def charBits (c : Nat) : List Bool :=
  List.replicate (8 - (natToBits c).length) false ++ natToBits c

/-- message_to_binary from the notebook: frame the message with the delimiter
on both sides and concatenate the per-character eight-bit groups. -/
def message_to_binary (message delimiter : List Nat) : List Bool :=
  ((delimiter ++ message ++ delimiter).map charBits).flatten

/-- Value of a bit string read most significant bit first, as Python
int with base two does. -/
def bitsToNat (l : List Bool) : Nat :=
  l.foldl (fun a b => 2 * a + (if b then 1 else 0)) 0

/-- binary_to_message from the notebook: consume the bit string in groups of
eight (a shorter trailing group is decoded from the bits it has, matching the
Python slice); each group becomes one code point. -/
def binary_to_message : List Bool → List Nat
  | [] => []
  | b1 :: b2 :: b3 :: b4 :: b5 :: b6 :: b7 :: b8 :: rest =>
      bitsToNat [b1, b2, b3, b4, b5, b6, b7, b8] :: binary_to_message rest
  | l => [bitsToNat l]

/-! Embedder: the refactoring dictionary and the three nested loops of
hide_in_image. -/

/-- The refactoring dictionary of hide_in_image, keyed by
(least significant bit, message bit); total on the keys that occur. -/
def evaluate_dict (lsb : Int) (bit : Bool) : Int :=
  if bit then (if lsb = 0 then 1 else 0) else (if lsb = 0 then 0 else -1)

/-- The inner channel loop of hide_in_image: write up to three bits into the
three channels of one pixel, stopping as soon as the bitstream is exhausted,
and return the modified pixel together with the remaining bits. -/
def embedPixel (p : Pixel) (bits : List Bool) : Pixel × List Bool :=
  match p, bits with
  | p, [] => (p, [])
  | (r, g, b), b0 :: rest =>
    let r1 := r + evaluate_dict (r % 2) b0
    match rest with
    | [] => ((r1, g, b), [])
    | b1 :: rest1 =>
      let g1 := g + evaluate_dict (g % 2) b1
      match rest1 with
      | [] => ((r1, g1, b), [])
      | b2 :: rest2 => ((r1, g1, b + evaluate_dict (b % 2) b2), rest2)

/-- The row loop of hide_in_image inside one column: the exhaustion check at
the top of the loop breaks out before touching the next pixel. -/
def embedColumn : List Pixel → List Bool → List Pixel × List Bool
  | [], bits => ([], bits)
  | p :: ps, bits =>
    if bits = [] then (p :: ps, [])
    else
      let pb := embedPixel p bits
      let rest := embedColumn ps pb.2
      (pb.1 :: rest.1, rest.2)

/-- The column loop of hide_in_image over the planned span, threading the
remaining bitstream through the columns in order. -/
def embedColsAux : List (List Pixel) → List Bool → List (List Pixel) × List Bool
  | [], bits => ([], bits)
  | c :: cs, bits =>
    let cb := embedColumn c bits
    let rest := embedColsAux cs cb.2
    (cb.1 :: rest.1, rest.2)

/-- The whole embedding pass: columns before the start column and after the
planned span are untouched. -/
def embedCols (cols : List (List Pixel)) (start count : Nat)
    (bits : List Bool) : List (List Pixel) :=
  cols.take start ++ (embedColsAux ((cols.drop start).take count) bits).1
    ++ cols.drop (start + count)

/-- Outcomes of hide_in_image.  The notebook reports the first three as
returned strings; valueError models the uncaught exception that
random.randrange raises on an empty range. -/
inductive HideResult where
  | emptyMessage
  | emptyDelimiter
  | tooSmall
  | valueError
  | ok (g : Grid)
deriving DecidableEq

/-- hide_in_image from the notebook.  The random draw is modelled by the
injectable function rnd: the notebook calls random.randrange(0, latest_start),
which returns a value below latest_start when latest_start is positive and
raises ValueError otherwise.  The two ceilings computed with float division
in Python are modelled as exact natural ceilings; the divisions are only
reached when the capacity check has passed, which forces a positive height. -/
def hide_in_image (message delimiter : List Nat) (g : Grid)
    (rnd : Nat → Nat) : HideResult :=
  if message.length = 0 then .emptyMessage
  else if delimiter.length = 0 then .emptyDelimiter
  else
    let binary_message := message_to_binary message delimiter
    let max_size := g.width * g.height * 3
    if max_size < binary_message.length then .tooSmall
    else
      let pixels_used := (binary_message.length + 3 - 1) / 3
      let columns_used := (pixels_used + g.height - 1) / g.height
      let latest_start : Int := (g.width : Int) - columns_used
      if latest_start ≤ 0 then .valueError
      else
        let random_column := rnd latest_start.toNat
        .ok ⟨g.height, embedCols g.cols random_column columns_used binary_message⟩

/-! Extractor: reveal_message. -/

/-- Parity of a channel value as a bit, the character appended to raw_binary. -/
def parityBit (v : Int) : Bool := decide (v % 2 = 1)

/-- The three channel values of a pixel in their fixed order. -/
def chanL (p : Pixel) : List Int := [p.1, p.2.1, p.2.2]

def colChans (col : List Pixel) : List Int := (col.map chanL).flatten

def gridChans (cols : List (List Pixel)) : List Int := (cols.map colChans).flatten

/-- raw_binary of reveal_message: every channel parity of every pixel, in
full-image column-major order. -/
def linearize (g : Grid) : List Bool := (gridChans g.cols).map parityBit

/-- The candidate start offsets of the delimiter scan: the members of
Python range(0, len, stride) for a positive stride. -/
def candidates (len stride : Nat) : List Nat :=
  (List.range ((len + stride - 1) / stride)).map (fun j => j * stride)

/-- The delimiter scan of reveal_message: the first candidate offset whose
window of delimiter-bit-length bits decodes to the delimiter. -/
def findDelim (raw : List Bool) (delimiter : List Nat) (stride : Nat) :
    Option Nat :=
  (candidates raw.length stride).find? fun s =>
    decide (binary_to_message ((raw.drop s).take (delimiter.length * 8)) = delimiter)

/-- Python str.find on code point lists: index of the first position where
the slice of needle-length equals the needle, and -1 when there is none. -/
def findSub : List Nat → List Nat → Option Nat
  | [], needle => if needle = [] then some 0 else none
  | h :: t, needle =>
    if (h :: t).take needle.length = needle then some 0
    else (findSub t needle).map (· + 1)

def pyFind (hay needle : List Nat) : Int :=
  match findSub hay needle with
  | some i => (i : Int)
  | none => -1

/-- A Python slice from the start, l up to i: a nonnegative i keeps the first
i elements; a negative i counts from the end, clamped at zero. -/
def pySliceTo (l : List Nat) (i : Int) : List Nat :=
  if i < 0 then l.take (l.length - (-i).toNat) else l.take i.toNat

/-- Outcomes of reveal_message.  emptyDelimiter and notFound are the two
returned sentinel strings; stepError models the ValueError that Python range
raises when the step height times three is zero. -/
inductive RevealResult where
  | emptyDelimiter
  | stepError
  | notFound
  | found (msg : List Nat)
deriving DecidableEq

/-- reveal_message from the notebook. -/
def reveal_message (g : Grid) (delimiter : List Nat) : RevealResult :=
  if delimiter.length = 0 then .emptyDelimiter
  else
    let raw := linearize g
    if g.height * 3 = 0 then .stepError
    else
      match findDelim raw delimiter (g.height * 3) with
      | none => .notFound
      | some delim_start =>
        let msg_start := delim_start + delimiter.length * 8
        let preprocessed := binary_to_message (raw.drop msg_start)
        .found (pySliceTo preprocessed (pyFind preprocessed delimiter))

/-! Concrete grids used by witnesses and counterexamples. -/

def zPix : Pixel := (0, 0, 0)

def zCol8 : List Pixel := List.replicate 8 zPix

/-- A blank three by eight image, every channel zero. -/
def gA : Grid := ⟨8, [zCol8, zCol8, zCol8]⟩

/-- A column whose first eight channel parities spell the code point 35. -/
def markCol : List Pixel := [(0, 0, 1), (0, 0, 0), (1, 1, 0)] ++ List.replicate 5 zPix

/-- A four by eight image whose untouched first column decodes to the
delimiter hash at candidate offset zero. -/
def gB : Grid := ⟨8, [markCol, zCol8, zCol8, zCol8]⟩

/-- A one by three image whose nine parities are the bits of hash then a zero. -/
def gC : Grid := ⟨3, [[(0, 0, 1), (0, 0, 0), (1, 1, 0)]]⟩

/-- A one by eight image: capacity 24 bits, so a 24 bit message exactly fits. -/
def gD : Grid := ⟨8, [zCol8]⟩

/-- Proof-side characterization of what the three embedding loops do to the
flat channel sequence: overwrite one channel per bit in order; the tail left
over when either list runs out is kept unchanged. -/
def writeChans : List Int → List Bool → List Int
  | [], _ => []
  | v :: vs, [] => v :: vs
  | v :: vs, b :: bs => (v + evaluate_dict (v % 2) b) :: writeChans vs bs

/-- Two pixels whose channel values agree within one unit, channel by
channel. -/
def pixelClose (p q : Pixel) : Prop :=
  (p.1 - q.1).natAbs ≤ 1 ∧ (p.2.1 - q.2.1).natAbs ≤ 1 ∧ (p.2.2 - q.2.2).natAbs ≤ 1

/-! Lemmas about the bit codec. -/

lemma natToBitsGo_zero (f : Nat) : natToBitsGo f 0 = [] := by cases f <;> rfl

lemma natToBitsGo_congr (n : Nat) : ∀ f₁ f₂, n ≤ f₁ → n ≤ f₂ →
    natToBitsGo f₁ n = natToBitsGo f₂ n := by
  induction n using Nat.strong_induction_on with
  | _ n ih =>
    intro f₁ f₂ h₁ h₂
    cases n with
    | zero => rw [natToBitsGo_zero, natToBitsGo_zero]
    | succ m =>
      cases f₁ with
      | zero => omega
      | succ f₁ =>
        cases f₂ with
        | zero => omega
        | succ f₂ =>
          simp only [natToBitsGo]
          rw [ih ((m + 1) / 2) (by omega) f₁ f₂ (by omega) (by omega)]

lemma natToBits_zero : natToBits 0 = [] := rfl

lemma natToBits_eq (n : Nat) (h : n ≠ 0) :
    natToBits n = natToBits (n / 2) ++ [decide (n % 2 = 1)] := by
  obtain ⟨m, rfl⟩ : ∃ m, n = m + 1 := ⟨n - 1, by omega⟩
  show natToBitsGo (m + 1) (m + 1) = _
  simp only [natToBitsGo]
  rw [natToBitsGo_congr ((m + 1) / 2) m ((m + 1) / 2) (by omega) (le_refl _)]
  rfl

lemma foldl_bits (l : List Bool) : ∀ a : Nat,
    List.foldl (fun a b => 2 * a + (if b then 1 else 0)) a l
      = a * 2 ^ l.length + List.foldl (fun a b => 2 * a + (if b then 1 else 0)) 0 l := by
  induction l with
  | nil => intro a; simp
  | cons b t ih =>
    intro a
    simp only [List.foldl_cons, List.length_cons]
    rw [ih, ih (2 * 0 + (if b then 1 else 0))]
    ring

lemma bitsToNat_append (a b : List Bool) :
    bitsToNat (a ++ b) = bitsToNat a * 2 ^ b.length + bitsToNat b := by
  show List.foldl _ _ _ = _
  rw [List.foldl_append, foldl_bits]
  rfl

lemma bitsToNat_natToBits (n : Nat) : bitsToNat (natToBits n) = n := by
  induction n using Nat.strong_induction_on with
  | _ n ih =>
    by_cases h : n = 0
    · subst h; rfl
    · rw [natToBits_eq n h, bitsToNat_append, ih (n / 2) (by omega)]
      by_cases h2 : n % 2 = 1 <;> simp [h2, bitsToNat] <;> omega

lemma bitsToNat_replicate_false (k : Nat) :
    bitsToNat (List.replicate k false) = 0 := by
  induction k with
  | zero => rfl
  | succ k ih =>
    show List.foldl _ _ _ = _
    simp only [List.replicate_succ, List.foldl_cons]
    simpa [bitsToNat] using ih

lemma bitsToNat_charBits (c : Nat) : bitsToNat (charBits c) = c := by
  unfold charBits
  rw [bitsToNat_append, bitsToNat_replicate_false, bitsToNat_natToBits]
  ring

lemma natToBits_length_le (n : Nat) : ∀ k, n < 2 ^ k → (natToBits n).length ≤ k := by
  induction n using Nat.strong_induction_on with
  | _ n ih =>
    intro k hk
    by_cases h : n = 0
    · subst h; simp [natToBits_zero]
    · cases k with
      | zero => omega
      | succ k =>
        rw [natToBits_eq n h]
        have hdiv : n / 2 < 2 ^ k := by
          rw [Nat.div_lt_iff_lt_mul (by norm_num)]
          calc n < 2 ^ (k + 1) := hk
            _ = 2 ^ k * 2 := by ring
        have := ih (n / 2) (by omega) k hdiv
        simp only [List.length_append, List.length_cons, List.length_nil]
        omega

lemma charBits_length {c : Nat} (hc : c < 256) : (charBits c).length = 8 := by
  have h := natToBits_length_le c 8 (by norm_num; omega)
  simp only [charBits, List.length_append, List.length_replicate]
  omega

lemma binary_to_message_nil : binary_to_message [] = [] := rfl

lemma decode_append8 (a b : List Bool) (h : a.length = 8) :
    binary_to_message (a ++ b) = bitsToNat a :: binary_to_message b := by
  rcases a with _ | ⟨b1, _ | ⟨b2, _ | ⟨b3, _ | ⟨b4, _ | ⟨b5, _ | ⟨b6, _ | ⟨b7, _ | ⟨b8, rest⟩⟩⟩⟩⟩⟩⟩⟩ <;>
    simp only [List.length_cons, List.length_nil] at h <;> try omega
  have hrest : rest = [] := by
    have : rest.length = 0 := by omega
    simpa [List.length_eq_zero] using this
  subst hrest
  rfl

lemma decode_encode_chunk : ∀ (s : List Nat) (X : List Bool), (∀ c ∈ s, c < 256) →
    binary_to_message ((s.map charBits).flatten ++ X) = s ++ binary_to_message X := by
  intro s
  induction s with
  | nil => intro X h; simp
  | cons c t ih =>
    intro X h
    simp only [List.map_cons, List.flatten_cons, List.append_assoc]
    rw [decode_append8 _ _ (charBits_length (h c (by simp))),
      bitsToNat_charBits, ih X (fun e he => h e (by simp [he]))]
    rfl

lemma mtb_decomp (m d : List Nat) :
    message_to_binary m d
      = (d.map charBits).flatten ++ ((m.map charBits).flatten ++ ((d.map charBits).flatten ++ [])) := by
  simp [message_to_binary]

lemma jcb_length : ∀ (s : List Nat), (∀ c ∈ s, c < 256) →
    ((s.map charBits).flatten).length = 8 * s.length := by
  intro s
  induction s with
  | nil => simp
  | cons c t ih =>
    intro h
    simp only [List.map_cons, List.flatten_cons, List.length_append, List.length_cons]
    rw [ih (fun e he => h e (by simp [he])), charBits_length (h c (by simp))]
    ring

lemma mtb_length (m d : List Nat) (hm : ∀ c ∈ m, c < 256) (hd : ∀ c ∈ d, c < 256) :
    (message_to_binary m d).length = 8 * (d.length + m.length + d.length) := by
  simp only [message_to_binary, List.map_append, List.flatten_append, List.length_append]
  rw [jcb_length m hm, jcb_length d hd]
  ring

/-- Claim C4: the codec round trip.  For every message and delimiter whose
code points are all below 256, decoding the bitstream produced by
message_to_binary yields exactly the framed string delimiter, message,
delimiter. -/
theorem C4_codec_round_trip (m d : List Nat) (hm : ∀ c ∈ m, c < 256)
    (hd : ∀ c ∈ d, c < 256) :
    binary_to_message (message_to_binary m d) = d ++ m ++ d := by
  rw [mtb_decomp, decode_encode_chunk d _ hd, decode_encode_chunk m _ hm,
    decode_encode_chunk d _ hd, binary_to_message_nil]
  simp

/-- Witness for C4 at the concrete input of the spec scenario. -/
theorem C4_codec_round_trip_witness :
    binary_to_message (message_to_binary [104, 105] [35, 35])
      = [35, 35] ++ [104, 105] ++ [35, 35] :=
  C4_codec_round_trip [104, 105] [35, 35] (by decide) (by decide)

/-- Claim C9: encoding the message hi with delimiter hash hash yields exactly
the 48 bit string 001000110010001101101000011010010010001100100011, and
decoding that string yields the six code points of hash hash h i hash hash. -/
theorem C9_concrete_scenario :
    message_to_binary [104, 105] [35, 35]
      = [false, false, true, false, false, false, true, true,
         false, false, true, false, false, false, true, true,
         false, true, true, false, true, false, false, false,
         false, true, true, false, true, false, false, true,
         false, false, true, false, false, false, true, true,
         false, false, true, false, false, false, true, true]
    ∧ binary_to_message
        [false, false, true, false, false, false, true, true,
         false, false, true, false, false, false, true, true,
         false, true, true, false, true, false, false, false,
         false, true, true, false, true, false, false, true,
         false, false, true, false, false, false, true, true,
         false, false, true, false, false, false, true, true]
      = [35, 35, 104, 105, 35, 35] := by
  exact ⟨by decide, by decide⟩

/-! Lemmas about the embedder. -/

lemma writeChans_nil_bits : ∀ m : List Int, writeChans m [] = m := by
  intro m; cases m <;> rfl

lemma writeChans_nil : ∀ bits, writeChans [] bits = [] := by
  intro bits; cases bits <;> rfl

lemma writeChans_append (a : List Int) : ∀ (b : List Int) (bits : List Bool),
    writeChans (a ++ b) bits = writeChans a bits ++ writeChans b (bits.drop a.length) := by
  induction a with
  | nil => intro b bits; simp [writeChans_nil]
  | cons v vs ih =>
    intro b bits
    cases bits with
    | nil => simp [writeChans_nil_bits]
    | cons bb bs =>
      simp only [List.cons_append, writeChans, List.append_eq, List.length_cons,
        List.drop_succ_cons, ih]

lemma writeChans_length (m : List Int) : ∀ bits, (writeChans m bits).length = m.length := by
  induction m with
  | nil => intro bits; rw [writeChans_nil]
  | cons v vs ih =>
    intro bits
    cases bits with
    | nil => rw [writeChans_nil_bits]
    | cons bb bs => simp only [writeChans, List.length_cons, ih]

lemma writeChans_drop (m : List Int) : ∀ bits : List Bool,
    (writeChans m bits).drop bits.length = m.drop bits.length := by
  induction m with
  | nil => intro bits; rw [writeChans_nil]
  | cons v vs ih =>
    intro bits
    cases bits with
    | nil => rw [writeChans_nil_bits]
    | cons bb bs => simp only [writeChans, List.length_cons, List.drop_succ_cons, ih]

lemma parity_write (v : Int) (b : Bool) : parityBit (v + evaluate_dict (v % 2) b) = b := by
  have h2 : v % 2 = 0 ∨ v % 2 = 1 := Int.emod_two_eq_zero_or_one v
  rcases h2 with h | h <;> cases b <;>
    simp [evaluate_dict, parityBit, h] <;> omega

lemma writeChans_parity (m : List Int) : ∀ bits : List Bool, bits.length ≤ m.length →
    (writeChans m bits).map parityBit = bits ++ (m.drop bits.length).map parityBit := by
  induction m with
  | nil =>
    intro bits h
    have hb : bits = [] := List.length_eq_zero.mp (by simpa using h)
    subst hb; rfl
  | cons v vs ih =>
    intro bits h
    cases bits with
    | nil => rw [writeChans_nil_bits]; rfl
    | cons bb bs =>
      simp only [writeChans, List.map_cons, List.cons_append, List.drop_succ_cons]
      rw [parity_write, ih bs (by simpa using h)]
      simp [List.length_cons, List.drop_succ_cons]

lemma write_range (v : Int) (b : Bool) (h0 : 0 ≤ v) (h255 : v ≤ 255) :
    0 ≤ v + evaluate_dict (v % 2) b ∧ v + evaluate_dict (v % 2) b ≤ 255 := by
  have h2 : v % 2 = 0 ∨ v % 2 = 1 := Int.emod_two_eq_zero_or_one v
  rcases h2 with h | h <;> cases b <;> simp only [evaluate_dict, h, if_true, if_false, reduceIte] <;> omega

lemma writeChans_range (m : List Int) : ∀ bits : List Bool,
    (∀ v ∈ m, 0 ≤ v ∧ v ≤ 255) → ∀ v ∈ writeChans m bits, 0 ≤ v ∧ v ≤ 255 := by
  induction m with
  | nil => intro bits _ v hv; rw [writeChans_nil] at hv; cases hv
  | cons w vs ih =>
    intro bits h v hv
    cases bits with
    | nil => rw [writeChans_nil_bits] at hv; exact h v hv
    | cons bb bs =>
      simp only [writeChans, List.mem_cons] at hv
      rcases hv with rfl | hv
      · exact write_range w bb (h w (by simp)).1 (h w (by simp)).2
      · exact ih bs (fun u hu => h u (by simp [hu])) v hv

lemma chanL_length (p : Pixel) : (chanL p).length = 3 := rfl

lemma colChans_cons (p : Pixel) (ps : List Pixel) :
    colChans (p :: ps) = chanL p ++ colChans ps := by
  simp [colChans]

lemma colChans_length (col : List Pixel) : (colChans col).length = 3 * col.length := by
  induction col with
  | nil => rfl
  | cons p ps ih =>
    rw [colChans_cons]
    simp only [List.length_append, chanL_length, ih, List.length_cons]
    ring

lemma gridChans_cons (c : List Pixel) (cs : List (List Pixel)) :
    gridChans (c :: cs) = colChans c ++ gridChans cs := by
  simp [gridChans]

lemma gridChans_append (a b : List (List Pixel)) :
    gridChans (a ++ b) = gridChans a ++ gridChans b := by
  simp [gridChans]

lemma embedPixel_chanL (p : Pixel) (bits : List Bool) :
    chanL (embedPixel p bits).1 = writeChans (chanL p) bits
      ∧ (embedPixel p bits).2 = bits.drop 3 := by
  obtain ⟨r, g, b⟩ := p
  rcases bits with _ | ⟨b0, _ | ⟨b1, _ | ⟨b2, rest⟩⟩⟩ <;>
    simp [embedPixel, chanL, writeChans]

lemma embedColumn_chans (col : List Pixel) : ∀ bits : List Bool,
    colChans (embedColumn col bits).1 = writeChans (colChans col) bits
      ∧ (embedColumn col bits).2 = bits.drop (3 * col.length) := by
  induction col with
  | nil =>
    intro bits
    simp [embedColumn, colChans, writeChans_nil]
  | cons p ps ih =>
    intro bits
    by_cases hb : bits = []
    · subst hb
      simp [embedColumn, writeChans_nil_bits]
    · simp only [embedColumn, if_neg hb]
      have hp := embedPixel_chanL p bits
      have hc := ih (embedPixel p bits).2
      constructor
      · rw [colChans_cons, colChans_cons, writeChans_append, chanL_length,
          hp.1, hc.1, hp.2]
      · rw [hc.2, hp.2, List.drop_drop]
        try congr 1
        try simp only [List.length_cons]
        try ring

lemma embedColsAux_chans (cs : List (List Pixel)) : ∀ bits : List Bool,
    gridChans (embedColsAux cs bits).1 = writeChans (gridChans cs) bits
      ∧ (embedColsAux cs bits).2 = bits.drop (gridChans cs).length := by
  induction cs with
  | nil =>
    intro bits
    simp [embedColsAux, gridChans, writeChans_nil]
  | cons c cs ih =>
    intro bits
    simp only [embedColsAux]
    have hc := embedColumn_chans c bits
    have hs := ih (embedColumn c bits).2
    constructor
    · rw [gridChans_cons, gridChans_cons, writeChans_append, hc.1, hs.1, hc.2,
        colChans_length]
    · rw [hs.2, hc.2, List.drop_drop, gridChans_cons, List.length_append,
        colChans_length]
      try congr 1
      try ring

/-- The master decomposition: the channel sequence after an embedding pass is
the untouched leading columns, then writeChans over the planned span, then
the untouched trailing columns. -/
lemma gridChans_embedCols (cols : List (List Pixel)) (start count : Nat)
    (bits : List Bool) :
    gridChans (embedCols cols start count bits)
      = gridChans (cols.take start)
        ++ writeChans (gridChans ((cols.drop start).take count)) bits
        ++ gridChans (cols.drop (start + count)) := by
  simp only [embedCols, gridChans_append]
  rw [(embedColsAux_chans ((cols.drop start).take count) bits).1]

/-- The standard decomposition of the column list around the planned span. -/
lemma cols_decomp (cols : List (List Pixel)) (start count : Nat) :
    cols = cols.take start ++ (cols.drop start).take count
      ++ cols.drop (start + count) := by
  have e2 : cols.drop (start + count) = (cols.drop start).drop count := by
    rw [List.drop_drop]
  rw [List.append_assoc, e2, List.take_append_drop, List.take_append_drop]

lemma gridChans_length_wf (h : Nat) : ∀ cs : List (List Pixel),
    (∀ c ∈ cs, c.length = h) → (gridChans cs).length = cs.length * (3 * h) := by
  intro cs
  induction cs with
  | nil => intro _; simp [gridChans]
  | cons c cs ih =>
    intro hwf
    rw [gridChans_cons, List.length_append, colChans_length,
      ih (fun e he => hwf e (by simp [he])), hwf c (by simp), List.length_cons]
    ring

lemma forallTwo_self {α : Type} {R : α → α → Prop} (h : ∀ a, R a a) :
    ∀ l : List α, List.Forall₂ R l l := by
  intro l
  induction l with
  | nil => exact List.Forall₂.nil
  | cons a t ih => exact List.Forall₂.cons (h a) ih

lemma forallTwo_append {α β : Type} {R : α → β → Prop} :
    ∀ {l₁ l₃ : List α} {l₂ l₄ : List β}, List.Forall₂ R l₁ l₂ →
      List.Forall₂ R l₃ l₄ → List.Forall₂ R (l₁ ++ l₃) (l₂ ++ l₄) := by
  intro l₁ l₃ l₂ l₄ h₁ h₂
  induction h₁ with
  | nil => exact h₂
  | cons hab _ ih => exact List.Forall₂.cons hab ih

lemma pixelClose_self (p : Pixel) : pixelClose p p := by
  refine ⟨?_, ?_, ?_⟩ <;> simp [pixelClose]

lemma evaluate_abs (l : Int) (b : Bool) : (evaluate_dict l b).natAbs ≤ 1 := by
  cases b <;> by_cases hl : l = 0 <;> simp [evaluate_dict, hl]

lemma embedPixel_close (p : Pixel) (bits : List Bool) :
    pixelClose p (embedPixel p bits).1 := by
  obtain ⟨r, g, b⟩ := p
  rcases bits with _ | ⟨b0, _ | ⟨b1, _ | ⟨b2, rest⟩⟩⟩ <;>
    simp [embedPixel, pixelClose, evaluate_abs]

lemma embedColumn_close (col : List Pixel) : ∀ bits : List Bool,
    List.Forall₂ pixelClose col (embedColumn col bits).1 := by
  induction col with
  | nil => intro bits; exact List.Forall₂.nil
  | cons p ps ih =>
    intro bits
    by_cases hb : bits = []
    · subst hb
      simp only [embedColumn, if_pos rfl]
      exact forallTwo_self pixelClose_self _
    · simp only [embedColumn, if_neg hb]
      exact List.Forall₂.cons (embedPixel_close p bits) (ih _)

lemma embedColsAux_close (cs : List (List Pixel)) : ∀ bits : List Bool,
    List.Forall₂ (List.Forall₂ pixelClose) cs (embedColsAux cs bits).1 := by
  induction cs with
  | nil => intro bits; exact List.Forall₂.nil
  | cons c cs ih =>
    intro bits
    exact List.Forall₂.cons (embedColumn_close c bits) (ih _)

/-- Claim C5: single bit perturbation.  For every grid, bitstream and plan,
after the embedding pass every channel value of every pixel differs from the
corresponding original channel value by at most 1. -/
theorem C5_single_bit_perturbation (cols : List (List Pixel))
    (start count : Nat) (bits : List Bool) :
    List.Forall₂ (List.Forall₂ pixelClose) cols (embedCols cols start count bits) := by
  unfold embedCols
  conv_lhs => rw [cols_decomp cols start count]
  exact forallTwo_append
    (forallTwo_append (forallTwo_self (forallTwo_self pixelClose_self) _)
      (embedColsAux_close _ _))
    (forallTwo_self (forallTwo_self pixelClose_self) _)

/-- Claim C6: the embedding pass writes exactly the bitstream.  The parities
of the first bitstream-length channels along the column-major traversal from
the start column equal the bits in order, and every channel at or beyond the
point of exhaustion, as well as every channel before the start column, keeps
its original value. -/
theorem C6_embed_stops_when_exhausted (cols : List (List Pixel))
    (h start count : Nat) (bits : List Bool)
    (hwf : ∀ c ∈ cols, c.length = h)
    (hsc : start + count ≤ cols.length)
    (hfit : bits.length ≤ count * (3 * h)) :
    (((gridChans (embedCols cols start count bits)).drop (start * (3 * h))).take
        bits.length).map parityBit = bits
    ∧ (gridChans (embedCols cols start count bits)).drop (start * (3 * h) + bits.length)
        = (gridChans cols).drop (start * (3 * h) + bits.length)
    ∧ (gridChans (embedCols cols start count bits)).take (start * (3 * h))
        = (gridChans cols).take (start * (3 * h)) := by
  have hA : (gridChans (cols.take start)).length = start * (3 * h) := by
    rw [gridChans_length_wf h _ (fun c hc => hwf c (List.take_subset start cols hc)),
      List.length_take, Nat.min_eq_left (by omega)]
  have hBlen : ((cols.drop start).take count).length = count := by
    rw [List.length_take, List.length_drop, Nat.min_eq_left (by omega)]
  have hB : (gridChans ((cols.drop start).take count)).length = count * (3 * h) := by
    rw [gridChans_length_wf h _
      (fun c hc => hwf c (List.drop_subset start cols (List.take_subset count _ hc))),
      hBlen]
  have hfitB : bits.length ≤ (gridChans ((cols.drop start).take count)).length := by
    rw [hB]; exact hfit
  have hW : (writeChans (gridChans ((cols.drop start).take count)) bits).length
      = (gridChans ((cols.drop start).take count)).length :=
    writeChans_length _ bits
  have hcols : gridChans cols
      = gridChans (cols.take start)
        ++ (gridChans ((cols.drop start).take count)
            ++ gridChans (cols.drop (start + count))) := by
    conv_lhs => rw [cols_decomp cols start count]
    rw [gridChans_append, gridChans_append, List.append_assoc]
  have hres : gridChans (embedCols cols start count bits)
      = gridChans (cols.take start)
        ++ (writeChans (gridChans ((cols.drop start).take count)) bits
            ++ gridChans (cols.drop (start + count))) := by
    rw [gridChans_embedCols, List.append_assoc]
  refine ⟨?_, ?_, ?_⟩
  · rw [hres, ← hA, List.drop_left,
      List.take_append_of_le_length (by omega), List.map_take,
      writeChans_parity _ bits hfitB, List.take_left]
  · rw [hres, hcols, ← hA]
    have step : ∀ (Y : List Int),
        (gridChans (cols.take start) ++ Y).drop
            ((gridChans (cols.take start)).length + bits.length)
          = Y.drop bits.length := by
      intro Y
      rw [← List.drop_drop, List.drop_left]
    rw [step, step, List.drop_append_of_le_length (by omega),
      List.drop_append_of_le_length hfitB, writeChans_drop]
  · rw [hres, hcols, ← hA, List.take_left, List.take_left]

/-- Claim C10: channel range invariant.  If every channel value of the grid
lies between 0 and 255 then, after the embedding pass, every channel value
still lies between 0 and 255. -/
theorem C10_channel_range_invariant (cols : List (List Pixel))
    (start count : Nat) (bits : List Bool)
    (hrange : ∀ v ∈ gridChans cols, 0 ≤ v ∧ v ≤ 255) :
    ∀ v ∈ gridChans (embedCols cols start count bits), 0 ≤ v ∧ v ≤ 255 := by
  have hmem : ∀ w : Int,
      w ∈ gridChans (cols.take start)
        ∨ w ∈ gridChans ((cols.drop start).take count)
        ∨ w ∈ gridChans (cols.drop (start + count)) →
      w ∈ gridChans cols := by
    intro w hw
    rw [cols_decomp cols start count, gridChans_append, gridChans_append]
    simp only [List.mem_append]
    tauto
  intro v hv
  rw [gridChans_embedCols] at hv
  simp only [List.mem_append] at hv
  rcases hv with (hv | hv) | hv
  · exact hrange v (hmem v (Or.inl hv))
  · exact writeChans_range _ bits
      (fun u hu => hrange u (hmem u (Or.inr (Or.inl hu)))) v hv
  · exact hrange v (hmem v (Or.inr (Or.inr hv)))

/-- Witness for C6 at a concrete grid, one bit embedded from column zero. -/
theorem C6_embed_stops_when_exhausted_witness :
    (((gridChans (embedCols gA.cols 0 1 [true])).drop (0 * (3 * 8))).take
        (List.length [true])).map parityBit = [true]
    ∧ (gridChans (embedCols gA.cols 0 1 [true])).drop
          (0 * (3 * 8) + (List.length [true]))
        = (gridChans gA.cols).drop (0 * (3 * 8) + (List.length [true]))
    ∧ (gridChans (embedCols gA.cols 0 1 [true])).take (0 * (3 * 8))
        = (gridChans gA.cols).take (0 * (3 * 8)) :=
  C6_embed_stops_when_exhausted gA.cols 8 0 1 [true] (by decide) (by decide) (by decide)

/-- Witness for C10 at a concrete grid of zero channels. -/
theorem C10_channel_range_invariant_witness :
    ((gridChans (embedCols gA.cols 0 1 [true])).all
        fun v => decide (0 ≤ v ∧ v ≤ 255)) = true := by
  rw [List.all_eq_true]
  intro v hv
  exact decide_eq_true
    (C10_channel_range_invariant gA.cols 0 1 [true] (by decide) v hv)

/-! Empty-input validation and the hide_in_image control flow. -/

/-- Claim C8: hide_in_image rejects an empty message before anything else,
rejects an empty delimiter next, and reveal_message rejects an empty
delimiter; the result never depends on the grid or on the random draw, which
captures that the checks run before any bit conversion or image work. -/
theorem C8_empty_input_validation :
    (∀ (d : List Nat) (g : Grid) (rnd : Nat → Nat),
        hide_in_image [] d g rnd = .emptyMessage)
    ∧ (∀ (m : List Nat) (g : Grid) (rnd : Nat → Nat), m ≠ [] →
        hide_in_image m [] g rnd = .emptyDelimiter)
    ∧ (∀ g : Grid, reveal_message g [] = .emptyDelimiter) := by
  refine ⟨fun d g rnd => rfl, fun m g rnd hm => ?_, fun g => rfl⟩
  simp only [hide_in_image, List.length_eq_zero, List.length_nil]
  rw [if_neg hm]
  simp

/-- Witness for C8 at concrete inputs. -/
theorem C8_empty_input_validation_witness :
    hide_in_image [] [35] gA (fun _ => 0) = .emptyMessage
    ∧ hide_in_image [104] [] gA (fun _ => 0) = .emptyDelimiter
    ∧ reveal_message gA [] = .emptyDelimiter :=
  ⟨C8_empty_input_validation.1 [35] gA (fun _ => 0),
   C8_empty_input_validation.2.1 [104] gA (fun _ => 0) (by decide),
   C8_empty_input_validation.2.2 gA⟩

lemma hide_tooSmall (m d : List Nat) (g : Grid) (rnd : Nat → Nat)
    (hm : m ≠ []) (hd : d ≠ [])
    (h : g.width * g.height * 3 < (message_to_binary m d).length) :
    hide_in_image m d g rnd = .tooSmall := by
  simp only [hide_in_image, List.length_eq_zero]
  rw [if_neg hm, if_neg hd, if_pos h]

lemma hide_valueError (m d : List Nat) (g : Grid) (rnd : Nat → Nat) (cu : Nat)
    (hm : m ≠ []) (hd : d ≠ [])
    (hcu : cu = (((message_to_binary m d).length + 3 - 1) / 3 + g.height - 1) / g.height)
    (hcap : (message_to_binary m d).length ≤ g.width * g.height * 3)
    (hge : g.width ≤ cu) :
    hide_in_image m d g rnd = .valueError := by
  simp only [hide_in_image, List.length_eq_zero]
  rw [if_neg hm, if_neg hd, if_neg (by omega), if_pos (by rw [← hcu]; omega)]

lemma hide_ok (m d : List Nat) (g : Grid) (rnd : Nat → Nat) (cu : Nat)
    (hm : m ≠ []) (hd : d ≠ [])
    (hcu : cu = (((message_to_binary m d).length + 3 - 1) / 3 + g.height - 1) / g.height)
    (hcap : (message_to_binary m d).length ≤ g.width * g.height * 3)
    (hvalid : cu < g.width) :
    hide_in_image m d g rnd
      = .ok ⟨g.height, embedCols g.cols (rnd (g.width - cu)) cu (message_to_binary m d)⟩ := by
  simp only [hide_in_image, List.length_eq_zero]
  rw [if_neg hm, if_neg hd, if_neg (by omega), if_neg (by rw [← hcu]; omega)]
  rw [← hcu]
  have ht : ((g.width : Int) - (cu : Nat)).toNat = g.width - cu := by omega
  rw [ht]

/-- Claim C3 (amended): for nonempty single-byte message and delimiter, the
reported capacity failure happens exactly when 8 times the framed length
exceeds width times height times 3; when the capacity suffices but width
minus columns_used is not positive the call instead ends in the uncaught
ValueError of randrange; otherwise the start column is the random draw from
the half-open range 0 to width minus columns_used and embedding proceeds. -/
theorem C3_capacity_behavior (m d : List Nat) (g : Grid) (rnd : Nat → Nat) (cu : Nat)
    (hm : m ≠ []) (hd : d ≠ [])
    (hmb : ∀ c ∈ m, c < 256) (hdb : ∀ c ∈ d, c < 256)
    (hcu : cu = ((8 * (m.length + 2 * d.length) + 3 - 1) / 3 + g.height - 1) / g.height) :
    (hide_in_image m d g rnd = .tooSmall
        ↔ g.width * g.height * 3 < 8 * (m.length + 2 * d.length))
    ∧ (8 * (m.length + 2 * d.length) ≤ g.width * g.height * 3 → g.width ≤ cu →
        hide_in_image m d g rnd = .valueError)
    ∧ (8 * (m.length + 2 * d.length) ≤ g.width * g.height * 3 → cu < g.width →
        hide_in_image m d g rnd
          = .ok ⟨g.height, embedCols g.cols (rnd (g.width - cu)) cu
              (message_to_binary m d)⟩) := by
  have e : (message_to_binary m d).length = 8 * (m.length + 2 * d.length) := by
    rw [mtb_length m d hmb hdb]; ring
  have hcu2 : cu = (((message_to_binary m d).length + 3 - 1) / 3 + g.height - 1) / g.height := by
    rw [e, hcu]
  refine ⟨⟨?_, ?_⟩, ?_, ?_⟩
  · intro hres
    by_contra hcap
    rw [Nat.not_lt] at hcap
    by_cases hw : g.width ≤ cu
    · rw [hide_valueError m d g rnd cu hm hd hcu2 (by omega) hw] at hres
      cases hres
    · rw [hide_ok m d g rnd cu hm hd hcu2 (by omega) (by omega)] at hres
      cases hres
  · intro h
    exact hide_tooSmall m d g rnd hm hd (by omega)
  · intro hcap hw
    exact hide_valueError m d g rnd cu hm hd hcu2 (by omega) hw
  · intro hcap hw
    exact hide_ok m d g rnd cu hm hd hcu2 (by omega) hw

/-- Witness for C3 on a three by eight grid: capacity 72 holds, columns_used
is 1, and the success branch embeds from the drawn column 0. -/
theorem C3_capacity_behavior_witness :
    hide_in_image [104] [35] gA (fun _ => 0)
      = .ok ⟨8, embedCols gA.cols 0 1 (message_to_binary [104] [35])⟩ :=
  (C3_capacity_behavior [104] [35] gA (fun _ => 0) 1 (by decide) (by decide)
    (by decide) (by decide) (by decide)).2.2 (by decide) (by decide)

/-- Counterexample to claim C3 as stated: for message a, delimiter b and a
one by eight image the capacity of 24 bits exactly suffices, columns_used is
1 and width minus columns_used is 0; the claim demands the recoverable
reported CapacityError in this case, but the code ends in the uncaught
ValueError that randrange raises on an empty range, which is a crash and is
a different outcome than the reported capacity failure. -/
theorem C3_counterexample :
    hide_in_image [97] [98] gD (fun _ => 0) = .valueError
    ∧ 8 * (List.length [97] + 2 * List.length [98]) ≤ gD.width * gD.height * 3
    ∧ ((8 * (List.length [97] + 2 * List.length [98]) + 3 - 1) / 3 + gD.height - 1) / gD.height = 1
    ∧ gD.width - 1 = 0
    ∧ HideResult.valueError ≠ HideResult.tooSmall := by
  refine ⟨by decide, by decide, by decide, by decide, by decide⟩

/-! The delimiter scan of reveal_message. -/

lemma find?_append_none {α : Type} (p : α → Bool) :
    ∀ (l₁ l₂ : List α), l₁.find? p = none → (l₁ ++ l₂).find? p = l₂.find? p := by
  intro l₁
  induction l₁ with
  | nil => intro l₂ _; rfl
  | cons a t ih =>
    intro l₂ h
    by_cases hpa : p a
    · rw [List.find?_cons_of_pos t hpa] at h
      cases h
    · rw [List.cons_append, List.find?_cons_of_neg _ hpa]
      rw [List.find?_cons_of_neg t hpa] at h
      exact ih l₂ h

lemma find?_split {α : Type} (p : α → Bool) (f : Nat → α) (w j : Nat)
    (hj : j < w) (hpj : p (f j) = true) (hmin : ∀ i, i < j → p (f i) = false) :
    ((List.range w).map f).find? p = some (f j) := by
  obtain ⟨k, hk⟩ : ∃ k, w - j = k + 1 := ⟨w - j - 1, by omega⟩
  have hr : List.range w = List.range j ++ (List.range (k + 1)).map (j + ·) := by
    rw [← List.range_add]
    congr 1
    omega
  rw [hr, List.map_append]
  rw [find?_append_none p _ _ ?none]
  case none =>
    apply List.find?_eq_none.mpr
    intro x hx
    simp only [List.mem_map, List.mem_range] at hx
    obtain ⟨i, hi, rfl⟩ := hx
    simp [hmin i hi]
  rw [List.range_succ_eq_map, List.map_cons, List.map_cons]
  have h0 : p (f (j + 0)) = true := by simpa using hpj
  rw [List.find?_cons_of_pos _ h0]
  simp

lemma linearize_length (g : Grid) (hwf : Grid.wf g) :
    (linearize g).length = g.width * (g.height * 3) := by
  rw [linearize, List.length_map, gridChans_length_wf g.height g.cols hwf, Grid.width]
  ring

lemma candidates_full (w s : Nat) (hs : 0 < s) :
    candidates (w * s) s = (List.range w).map (· * s) := by
  unfold candidates
  congr 1
  obtain ⟨t, rfl⟩ : ∃ t, s = t + 1 := ⟨s - 1, by omega⟩
  have e1 : w * (t + 1) + (t + 1) - 1 = t + (t + 1) * w := by
    have e2 : w * (t + 1) = (t + 1) * w := by ring
    omega
  rw [e1, Nat.add_mul_div_left t w (by omega), Nat.div_eq_of_lt (by omega), Nat.zero_add]

/-- Claim C7: the delimiter scan of reveal_message tries exactly the offsets
j times height times 3 for j below the width, decoding a window of eight
times the delimiter length bits at each; the lowest matching offset wins and
determines the decoded tail, and if no candidate matches the result is the
not-found outcome rather than a recovered string. -/
theorem C7_delimiter_scan (g : Grid) (d : List Nat)
    (hwf : Grid.wf g) (hh : 0 < g.height) (hd : d ≠ []) :
    (candidates (linearize g).length (g.height * 3)
        = (List.range g.width).map (· * (g.height * 3)))
    ∧ (reveal_message g d = .notFound ↔ ∀ j < g.width,
        binary_to_message (((linearize g).drop (j * (g.height * 3))).take
          (d.length * 8)) ≠ d)
    ∧ (∀ j < g.width,
        binary_to_message
            (((linearize g).drop (j * (g.height * 3))).take (d.length * 8)) = d →
        (∀ i < j,
          binary_to_message
              (((linearize g).drop (i * (g.height * 3))).take (d.length * 8)) ≠ d) →
        reveal_message g d = .found
          (pySliceTo
            (binary_to_message ((linearize g).drop (j * (g.height * 3) + d.length * 8)))
            (pyFind
              (binary_to_message ((linearize g).drop (j * (g.height * 3) + d.length * 8)))
              d))) := by
  have hcand : candidates (linearize g).length (g.height * 3)
      = (List.range g.width).map (· * (g.height * 3)) := by
    rw [linearize_length g hwf]
    exact candidates_full g.width (g.height * 3) (by omega)
  have hdlen : ¬ d.length = 0 := by simpa [List.length_eq_zero] using hd
  have hstep : ¬ g.height * 3 = 0 := by omega
  refine ⟨hcand, ?_, ?_⟩
  · simp only [reveal_message, if_neg hdlen, if_neg hstep]
    rcases hfd : findDelim (linearize g) d (g.height * 3) with _ | s
    · constructor
      · intro _ j hj
        rw [findDelim, hcand] at hfd
        have hall := List.find?_eq_none.mp hfd
        have hmem : j * (g.height * 3) ∈ (List.range g.width).map (· * (g.height * 3)) :=
          List.mem_map.mpr ⟨j, List.mem_range.mpr hj, rfl⟩
        have := hall _ hmem
        simpa using this
      · intro _
        rfl
    · constructor
      · intro hres
        cases hres
      · intro hnone
        rw [findDelim, hcand] at hfd
        have hps := List.find?_some hfd
        have hmem := List.mem_of_find?_eq_some hfd
        simp only [List.mem_map, List.mem_range] at hmem
        obtain ⟨j, hj, rfl⟩ := hmem
        have := hnone j hj
        simp only [decide_eq_true_eq] at hps
        exact absurd hps this
  · intro j hj hmatch hmin
    have hfd : findDelim (linearize g) d (g.height * 3) = some (j * (g.height * 3)) := by
      rw [findDelim, hcand]
      exact find?_split _ _ g.width j hj (by simpa using hmatch)
        (fun i hi => by simpa using hmin i hi)
    simp only [reveal_message, if_neg hdlen, if_neg hstep, hfd]

/-- Witness for C7: the blank grid holds no delimiter, so reveal_message
reports the not-found outcome. -/
theorem C7_delimiter_scan_witness : reveal_message gA [35] = RevealResult.notFound :=
  ((C7_delimiter_scan gA [35]
    (by exact (by decide : ∀ c ∈ gA.cols, c.length = gA.height))
    (by decide) (by decide)).2.1).mpr (by decide)

/-! Truncation of the decoded tail at the closing delimiter. -/

lemma pySliceTo_neg_one (l : List Nat) : pySliceTo l (-1) = l.take (l.length - 1) := by
  simp [pySliceTo]

/-- Claim C2 (amended): when an opening delimiter is found at some candidate
offset but the closing delimiter substring never occurs in the decoded tail,
the decoded tail minus its final character is returned: Python str.find
yields -1 and the slice up to -1 removes the last character, so the tail is
not returned as is. -/
theorem C2_missing_closing_delimiter (g : Grid) (d : List Nat)
    (hd : ¬ d.length = 0) (hstep : ¬ g.height * 3 = 0) (s : Nat)
    (hfd : findDelim (linearize g) d (g.height * 3) = some s)
    (hnone : findSub (binary_to_message ((linearize g).drop (s + d.length * 8))) d = none) :
    reveal_message g d
      = .found ((binary_to_message ((linearize g).drop (s + d.length * 8))).take
          ((binary_to_message ((linearize g).drop (s + d.length * 8))).length - 1)) := by
  simp only [reveal_message, if_neg hd, if_neg hstep, hfd]
  rw [pyFind, hnone, pySliceTo_neg_one]

/-- Witness for the amended C2 at the concrete one by three image. -/
theorem C2_missing_closing_delimiter_witness :
    reveal_message gC [35]
      = .found ((binary_to_message ((linearize gC).drop (0 + List.length [35] * 8))).take
          ((binary_to_message ((linearize gC).drop (0 + List.length [35] * 8))).length - 1)) :=
  C2_missing_closing_delimiter gC [35] (by decide) (by decide) 0 (by decide) (by decide)

/-- Counterexample to claim C2 as stated: in the one by three image gC the
opening delimiter, the code point 35, matches at offset 0 and the decoded
tail is the single code point 0, in which the closing delimiter never
occurs.  The claim says the full tail, here the one-character string of the
code point 0, is returned with no characters removed; the code instead
returns the empty string, because Python str.find yields -1 and the slice up
to -1 removes the final character. -/
theorem C2_counterexample :
    findDelim (linearize gC) [35] (gC.height * 3) = some 0
    ∧ findSub (binary_to_message ((linearize gC).drop (0 + 1 * 8))) [35] = none
    ∧ binary_to_message ((linearize gC).drop (0 + 1 * 8)) = [0]
    ∧ reveal_message gC [35] = .found []
    ∧ RevealResult.found [] ≠ RevealResult.found [0] :=
  ⟨by decide, by decide, by decide, by decide, by decide⟩

/-! Shape preservation of the embedding pass and the round trip. -/

lemma embedColumn_length (col : List Pixel) : ∀ bits : List Bool,
    (embedColumn col bits).1.length = col.length := by
  induction col with
  | nil => intro bits; rfl
  | cons p ps ih =>
    intro bits
    by_cases hb : bits = []
    · subst hb; simp [embedColumn]
    · simp only [embedColumn, if_neg hb, List.length_cons, ih]

lemma embedColsAux_length (cs : List (List Pixel)) : ∀ bits : List Bool,
    (embedColsAux cs bits).1.length = cs.length := by
  induction cs with
  | nil => intro bits; rfl
  | cons c cs ih => intro bits; simp only [embedColsAux, List.length_cons, ih]

lemma embedColsAux_wf (h : Nat) (cs : List (List Pixel)) : ∀ bits : List Bool,
    (∀ c ∈ cs, c.length = h) → ∀ c ∈ (embedColsAux cs bits).1, c.length = h := by
  induction cs with
  | nil => intro bits _ c hc; cases hc
  | cons c cs ih =>
    intro bits hwf e he
    simp only [embedColsAux, List.mem_cons] at he
    rcases he with rfl | he
    · rw [embedColumn_length c bits]
      exact hwf c (by simp)
    · exact ih _ (fun u hu => hwf u (by simp [hu])) e he

lemma embedCols_wf (h : Nat) (cols : List (List Pixel)) (start count : Nat)
    (bits : List Bool) (hwf : ∀ c ∈ cols, c.length = h) :
    ∀ c ∈ embedCols cols start count bits, c.length = h := by
  intro c hc
  simp only [embedCols, List.mem_append] at hc
  rcases hc with (hc | hc) | hc
  · exact hwf c (List.take_subset start cols hc)
  · exact embedColsAux_wf h _ bits
      (fun u hu => hwf u (List.drop_subset start cols (List.take_subset count _ hu))) c hc
  · exact hwf c (List.drop_subset (start + count) cols hc)

lemma embedCols_length (cols : List (List Pixel)) (start count : Nat)
    (bits : List Bool) (hsc : start + count ≤ cols.length) :
    (embedCols cols start count bits).length = cols.length := by
  simp only [embedCols, List.length_append, embedColsAux_length, List.length_take,
    List.length_drop]
  omega

/-- The linearized parities of the embedded grid: the untouched head, the
embedded bitstream, then the untouched tail. -/
lemma linearize_embed (cols : List (List Pixel)) (h start count : Nat)
    (bits : List Bool)
    (hwf : ∀ c ∈ cols, c.length = h)
    (hsc : start + count ≤ cols.length)
    (hfit : bits.length ≤ count * (3 * h)) :
    (gridChans (embedCols cols start count bits)).map parityBit
      = ((gridChans cols).map parityBit).take (start * (3 * h))
        ++ bits
        ++ ((gridChans cols).map parityBit).drop (start * (3 * h) + bits.length) := by
  have hA : (gridChans (cols.take start)).length = start * (3 * h) := by
    rw [gridChans_length_wf h _ (fun c hc => hwf c (List.take_subset start cols hc)),
      List.length_take, Nat.min_eq_left (by omega)]
  have hBlen : ((cols.drop start).take count).length = count := by
    rw [List.length_take, List.length_drop, Nat.min_eq_left (by omega)]
  have hB : (gridChans ((cols.drop start).take count)).length = count * (3 * h) := by
    rw [gridChans_length_wf h _
      (fun c hc => hwf c (List.drop_subset start cols (List.take_subset count _ hc))),
      hBlen]
  have hfitB : bits.length ≤ (gridChans ((cols.drop start).take count)).length := by
    rw [hB]; exact hfit
  have hcols : gridChans cols
      = gridChans (cols.take start)
        ++ (gridChans ((cols.drop start).take count)
            ++ gridChans (cols.drop (start + count))) := by
    conv_lhs => rw [cols_decomp cols start count]
    rw [gridChans_append, gridChans_append, List.append_assoc]
  have hmapA : ((gridChans cols).map parityBit).take (start * (3 * h))
      = (gridChans (cols.take start)).map parityBit := by
    rw [hcols, List.map_append, ← hA,
      show (gridChans (cols.take start)).length
          = ((gridChans (cols.take start)).map parityBit).length from
        (List.length_map _ _).symm,
      List.take_left]
  have hmapdrop : ((gridChans cols).map parityBit).drop (start * (3 * h) + bits.length)
      = ((gridChans ((cols.drop start).take count)).drop bits.length).map parityBit
        ++ (gridChans (cols.drop (start + count))).map parityBit := by
    rw [hcols, List.map_append, List.map_append]
    rw [show start * (3 * h) = ((gridChans (cols.take start)).map parityBit).length by
      rw [List.length_map, hA]]
    rw [← List.drop_drop, List.drop_left,
      List.drop_append_of_le_length (by rw [List.length_map]; exact hfitB),
      ← List.map_drop]
  calc (gridChans (embedCols cols start count bits)).map parityBit
      = (gridChans (cols.take start)
          ++ writeChans (gridChans ((cols.drop start).take count)) bits
          ++ gridChans (cols.drop (start + count))).map parityBit := by
        rw [gridChans_embedCols]
    _ = (gridChans (cols.take start)).map parityBit
        ++ (writeChans (gridChans ((cols.drop start).take count)) bits).map parityBit
        ++ (gridChans (cols.drop (start + count))).map parityBit := by
        simp [List.map_append]
    _ = (gridChans (cols.take start)).map parityBit
        ++ (bits ++ ((gridChans ((cols.drop start).take count)).drop bits.length).map parityBit)
        ++ (gridChans (cols.drop (start + count))).map parityBit := by
        rw [writeChans_parity _ bits hfitB]
    _ = ((gridChans cols).map parityBit).take (start * (3 * h))
        ++ bits
        ++ ((gridChans cols).map parityBit).drop (start * (3 * h) + bits.length) := by
        rw [hmapA, hmapdrop]
        simp [List.append_assoc]

lemma findSub_eq_some (needle : List Nat) : ∀ (i : Nat) (hay : List Nat),
    (hay.drop i).take needle.length = needle →
    (∀ j < i, (hay.drop j).take needle.length ≠ needle) →
    findSub hay needle = some i := by
  intro i
  induction i with
  | zero =>
    intro hay hpre _
    cases hay with
    | nil =>
      simp only [List.drop_nil, List.take_nil] at hpre
      simp [findSub, ← hpre]
    | cons a t =>
      simp only [List.drop_zero] at hpre
      simp only [findSub, if_pos hpre]
  | succ i ih =>
    intro hay hpre hmin
    have h0 : ¬ hay.take needle.length = needle := by
      have := hmin 0 (by omega)
      simpa using this
    cases hay with
    | nil =>
      exact absurd (by simpa using hpre) (by simpa using h0)
    | cons a t =>
      simp only [findSub, if_neg h0]
      rw [ih t (by simpa using hpre) (fun j hj => by simpa using hmin (j + 1) (by omega))]
      rfl

/-- A window that stays inside the first block of an appended list. -/
lemma window_append (X J : List Nat) (j n : Nat) (hj : j ≤ X.length)
    (hn : n ≤ X.length - j) :
    ((X ++ J).drop j).take n = (X.drop j).take n := by
  rw [List.drop_append_of_le_length hj,
    List.take_append_of_le_length (by rw [List.length_drop]; omega)]

lemma pySliceTo_natCast (l : List Nat) (n : Nat) :
    pySliceTo l (n : Int) = l.take n := by
  simp [pySliceTo]

/-- Revealing from a grid produced by the embedding pass recovers the
message, provided the bitstream fits in the planned span, the delimiter does
not occur early inside the framed payload, and no candidate offset before
the start column decodes to the delimiter. -/
lemma reveal_embedded (m d : List Nat) (cols : List (List Pixel))
    (h start cu : Nat)
    (hmb : ∀ c ∈ m, c < 256) (hdb : ∀ c ∈ d, c < 256)
    (hwf : ∀ c ∈ cols, c.length = h)
    (hh : 0 < h) (hd1 : 0 < d.length)
    (hsc : start + cu ≤ cols.length)
    (hstartw : start < cols.length)
    (hfit : (message_to_binary m d).length ≤ cu * (3 * h))
    (hnocollide : ∀ i < m.length, ((m ++ d).drop i).take d.length ≠ d)
    (hnoearly : ∀ j < start,
        binary_to_message
            (((linearize ⟨h, embedCols cols start cu (message_to_binary m d)⟩).drop
              (j * (h * 3))).take (d.length * 8)) ≠ d) :
    reveal_message ⟨h, embedCols cols start cu (message_to_binary m d)⟩ d
      = .found m := by
  have hdlen : ¬ d.length = 0 := by omega
  have hstep : ¬ h * 3 = 0 := by omega
  have hlin : linearize ⟨h, embedCols cols start cu (message_to_binary m d)⟩
      = ((gridChans cols).map parityBit).take (start * (3 * h))
        ++ message_to_binary m d
        ++ ((gridChans cols).map parityBit).drop
            (start * (3 * h) + (message_to_binary m d).length) :=
    linearize_embed cols h start cu _ hwf hsc hfit
  have hTlen : (((gridChans cols).map parityBit).take (start * (3 * h))).length
      = start * (3 * h) := by
    rw [List.length_take, List.length_map, gridChans_length_wf h cols hwf]
    exact Nat.min_eq_left (Nat.mul_le_mul_right _ (le_of_lt hstartw))
  have hBdec : message_to_binary m d
      = (d.map charBits).flatten
        ++ ((m.map charBits).flatten ++ (d.map charBits).flatten) := by
    rw [mtb_decomp]; simp
  have hJd : ((d.map charBits).flatten).length = 8 * d.length := jcb_length d hdb
  have wf2 : Grid.wf ⟨h, embedCols cols start cu (message_to_binary m d)⟩ :=
    embedCols_wf h cols start cu _ hwf
  have hlinlen : (linearize ⟨h, embedCols cols start cu (message_to_binary m d)⟩).length
      = cols.length * (h * 3) := by
    rw [linearize_length _ wf2]
    show (embedCols cols start cu (message_to_binary m d)).length * (h * 3) = _
    rw [embedCols_length cols start cu _ hsc]
  have he1 : start * (h * 3)
      = (((gridChans cols).map parityBit).take (start * (3 * h))).length := by
    rw [hTlen]; ring
  have hwindow : ((linearize ⟨h, embedCols cols start cu (message_to_binary m d)⟩).drop
        (start * (h * 3))).take (d.length * 8) = (d.map charBits).flatten := by
    rw [hlin, he1, List.append_assoc, List.drop_left, hBdec, List.append_assoc,
      show d.length * 8 = ((d.map charBits).flatten).length by rw [hJd]; ring,
      List.take_left]
  have hdecJd : binary_to_message ((d.map charBits).flatten) = d := by
    have := decode_encode_chunk d [] hdb
    simpa [binary_to_message_nil] using this
  have hfd : findDelim (linearize ⟨h, embedCols cols start cu (message_to_binary m d)⟩)
      d (h * 3) = some (start * (h * 3)) := by
    rw [findDelim, hlinlen, candidates_full cols.length (h * 3) (by omega)]
    apply find?_split _ _ cols.length start hstartw
    · rw [decide_eq_true_eq, hwindow, hdecJd]
    · intro i hi
      rw [decide_eq_false_iff_not]
      exact hnoearly i hi
  have hPdrop : (linearize ⟨h, embedCols cols start cu (message_to_binary m d)⟩).drop
        (start * (h * 3) + d.length * 8)
      = (m.map charBits).flatten
        ++ ((d.map charBits).flatten
          ++ ((gridChans cols).map parityBit).drop
              (start * (3 * h) + (message_to_binary m d).length)) := by
    rw [hlin, he1, List.append_assoc, ← List.drop_drop, List.drop_left, hBdec,
      List.append_assoc,
      show d.length * 8 = ((d.map charBits).flatten).length by rw [hJd]; ring,
      List.drop_left, List.append_assoc]
  have hP : binary_to_message
        ((linearize ⟨h, embedCols cols start cu (message_to_binary m d)⟩).drop
          (start * (h * 3) + d.length * 8))
      = m ++ (d ++ binary_to_message
          (((gridChans cols).map parityBit).drop
            (start * (3 * h) + (message_to_binary m d).length))) := by
    rw [hPdrop, decode_encode_chunk m _ hmb, decode_encode_chunk d _ hdb]
  have hfind : findSub (binary_to_message
        ((linearize ⟨h, embedCols cols start cu (message_to_binary m d)⟩).drop
          (start * (h * 3) + d.length * 8))) d = some m.length := by
    rw [hP]
    apply findSub_eq_some
    · rw [List.drop_left, List.take_left]
    · intro j hj
      rw [show m ++ (d ++ binary_to_message
            (((gridChans cols).map parityBit).drop
              (start * (3 * h) + (message_to_binary m d).length)))
          = (m ++ d) ++ binary_to_message
            (((gridChans cols).map parityBit).drop
              (start * (3 * h) + (message_to_binary m d).length)) by
          rw [List.append_assoc],
        window_append _ _ j d.length (by rw [List.length_append]; omega)
          (by rw [List.length_append]; omega)]
      exact hnocollide j hj
  simp only [reveal_message, if_neg hdlen]
  rw [if_neg hstep, hfd]
  have hpf : pyFind (binary_to_message
      ((linearize ⟨h, embedCols cols start cu (message_to_binary m d)⟩).drop
        (start * (h * 3) + d.length * 8))) d = (m.length : Int) := by
    simp only [pyFind, hfind]
  rw [hP] at hpf
  simp only [hP, hpf, pySliceTo_natCast, List.take_left]

/-- Claim C1 (amended): the round-trip law.  For a nonempty single-byte
message and delimiter, a well-formed grid with enough capacity and a valid
start column, where the delimiter does not occur early inside the framed
payload, and additionally no candidate offset strictly before the drawn
start column decodes to the delimiter in the stego image, revealing the
delimiter from the grid produced by hiding the message returns exactly the
original message. -/
theorem C1_round_trip (m d : List Nat) (g : Grid) (rnd : Nat → Nat)
    (hm : m ≠ []) (hd : d ≠ [])
    (hmb : ∀ c ∈ m, c < 256) (hdb : ∀ c ∈ d, c < 256)
    (hwf : ∀ c ∈ g.cols, c.length = g.height)
    (cu start : Nat)
    (hcu : cu = (((message_to_binary m d).length + 3 - 1) / 3 + g.height - 1) / g.height)
    (hcap : (message_to_binary m d).length ≤ g.width * g.height * 3)
    (hvalid : cu < g.width)
    (hstart : start = rnd (g.width - cu))
    (hdraw : start < g.width - cu)
    (hnocollide : ∀ i < m.length, ((m ++ d).drop i).take d.length ≠ d)
    (hnoearly : ∀ j < start,
        binary_to_message
            (((linearize ⟨g.height, embedCols g.cols start cu (message_to_binary m d)⟩).drop
              (j * (g.height * 3))).take (d.length * 8)) ≠ d) :
    hide_in_image m d g rnd
      = .ok ⟨g.height, embedCols g.cols start cu (message_to_binary m d)⟩
    ∧ reveal_message ⟨g.height, embedCols g.cols start cu (message_to_binary m d)⟩ d
      = .found m := by
  constructor
  · rw [hstart]
    exact hide_ok m d g rnd cu hm hd hcu hcap hvalid
  · have hd1 : 0 < d.length := List.length_pos.mpr hd
    have hm1 : 0 < m.length := List.length_pos.mpr hm
    have hBL : (message_to_binary m d).length = 8 * (d.length + m.length + d.length) :=
      mtb_length m d hmb hdb
    have hL24 : 24 ≤ (message_to_binary m d).length := by omega
    have hh : 0 < g.height := by
      rcases Nat.eq_zero_or_pos g.height with h0 | h0
      · exfalso
        rw [h0, show g.width * 0 * 3 = 0 from by ring] at hcap
        omega
      · exact h0
    have hfit : (message_to_binary m d).length ≤ cu * (3 * g.height) := by
      set L := (message_to_binary m d).length with hLdef
      set P := (L + 3 - 1) / 3 with hPdef
      have h3P : L ≤ 3 * P := by omega
      have hdm := Nat.div_add_mod (P + g.height - 1) g.height
      have hmod := Nat.mod_lt (P + g.height - 1) hh
      rw [← hcu] at hdm
      have hPcu : P ≤ g.height * cu := by omega
      calc L ≤ 3 * P := h3P
        _ ≤ 3 * (g.height * cu) := by omega
        _ = cu * (3 * g.height) := by ring
    have hww : g.width = g.cols.length := rfl
    have h4 : start + cu < g.width := by
      have h5 := Nat.add_lt_add_right hdraw cu
      rwa [Nat.sub_add_cancel (le_of_lt hvalid)] at h5
    have hsc : start + cu ≤ g.cols.length := by
      rw [← hww]
      exact le_of_lt h4
    have hsw : start < g.cols.length := by
      rw [← hww]
      exact lt_of_le_of_lt (Nat.le_add_right start cu) h4
    exact reveal_embedded m d g.cols g.height start cu hmb hdb hwf hh hd1 hsc hsw
      hfit hnocollide hnoearly

/-- Witness for the amended C1: hiding h with delimiter hash in the blank
three by eight image with the draw landing on column 0, then revealing,
returns the message. -/
theorem C1_round_trip_witness :
    hide_in_image [104] [35] gA (fun _ => 0)
      = .ok ⟨gA.height, embedCols gA.cols 0 1 (message_to_binary [104] [35])⟩
    ∧ reveal_message ⟨gA.height, embedCols gA.cols 0 1 (message_to_binary [104] [35])⟩ [35]
      = .found [104] :=
  C1_round_trip [104] [35] gA (fun _ => 0) (by decide) (by decide) (by decide)
    (by decide) (by decide) 1 0 (by decide) (by decide) (by decide) (by decide)
    (by decide) (by decide) (fun j hj => (Nat.not_lt_zero j hj).elim)

/-- Counterexample to claim C1 as stated: the four by eight image gB whose
untouched first column decodes to the delimiter at candidate offset 0.  The
message h and the delimiter hash are nonempty, the delimiter does not occur
early in the framed payload, the capacity suffices and the drawn start
column 1 is valid, yet revealing returns the two code points read from the
untouched first column instead of the message, because the scan matches the
spurious earlier candidate first. -/
theorem C1_counterexample :
    ([104] : List Nat) ≠ []
    ∧ ([35] : List Nat) ≠ []
    ∧ (([104] ++ [35]).drop 0).take (List.length [35]) ≠ [35]
    ∧ (message_to_binary [104] [35]).length ≤ gB.width * gB.height * 3
    ∧ 1 < gB.width - 1
    ∧ hide_in_image [104] [35] gB (fun _ => 1)
        = .ok ⟨gB.height, embedCols gB.cols 1 1 (message_to_binary [104] [35])⟩
    ∧ reveal_message ⟨gB.height, embedCols gB.cols 1 1 (message_to_binary [104] [35])⟩ [35]
        = .found [0, 0]
    ∧ RevealResult.found [0, 0] ≠ RevealResult.found [104] :=
  ⟨by decide, by decide, by decide, by decide, by decide, by decide, by decide,
    by decide⟩
